import Mathlib

/-!
Verification of the `dr-get-dicom` pipeline (Donders-Institute/dicom-dr-tools).

The development shallowly embeds the Go source:
  * `goClean`, `goDir`, `goBase`, `goExt`, `goJoin` model Go's
    `path/filepath` functions `Clean`, `Dir`, `Base`, `Ext`, `Join`
    (unix separator, no volume names);
  * `strIndex` models `strings.Index` (character positions; the paths and
    date strings involved are ASCII, where byte and rune indices agree);
  * `dedupStep`/`dedupRun` model the collection-deduplication goroutine of
    `getOneDicom` (main.go, lines 96-129);
  * `selectFiles` models the per-collection file-selection loop
    (main.go, lines 146-161);
  * `tgzLoop` and `tgzExtract` model the gzipped-tar extraction loop of
    `DicomExtractorTgz.Extract` and of `downloadDicom`;
  * `resolveLoc` and `downloadDicom` model the path computation and the
    effectful body of `downloadDicom` (main.go, lines 246-333), with the
    filesystem and the iRODS commands abstracted as boolean oracles and an
    explicit effect trace;
  * `PoolState`/`Step`/`Reaches` give a small-step semantics of one worker
    pool together with its `waitWorkers` closer goroutine.
-/

namespace DrTools

/-! ## Go `path/filepath` primitives -/

/-- Split a character list at every `/`; structurally recursive so that it
reduces inside the kernel. -/
def splitSlash : List Char → List (List Char)
  | [] => [[]]
  | c :: rest =>
    if c = '/' then [] :: splitSlash rest
    else
      match splitSlash rest with
      | [] => [[c]]
      | h :: t => (c :: h) :: t

/-- Join path elements with `/` between consecutive elements. -/
def joinComps : List (List Char) → List Char
  | [] => []
  | [c] => c
  | c :: c2 :: rest => c ++ '/' :: joinComps (c2 :: rest)

/-- One step of the element loop inside Go's `filepath.Clean`: `""` and `"."`
elements are dropped, `".."` pops the previous element unless the output is
empty (rooted: dropped; unrooted: kept) or already ends in `".."`, and any
other element is pushed.  The accumulator holds the output elements in
reverse order. -/
def cleanFold (rooted : Bool) (acc : List (List Char)) (c : List Char) :
    List (List Char) :=
  if c = [] || c = ['.'] then acc
  else if c = ['.', '.'] then
    match acc with
    | [] => if rooted then [] else [['.', '.']]
    | a :: rest => if a = ['.', '.'] then c :: a :: rest else rest
  else c :: acc

/-- Go's `filepath.Clean` for unix paths. -/
def goClean (s : String) : String :=
  if s.data.isEmpty then "."
  else
    let rooted := s.data.head? = some '/'
    let comps := (splitSlash s.data).foldl (cleanFold rooted) []
    match comps.reverse with
    | [] => if rooted then "/" else "."
    | out => String.mk ((if rooted then ['/'] else []) ++ joinComps out)

/-- Go's `filepath.Dir`: everything up to and including the final slash,
then `goClean`; `"."` when the path holds no slash. -/
def goDir (s : String) : String :=
  let rev := s.data.reverse
  let tail := rev.takeWhile (fun c => c != '/')
  goClean (String.mk (rev.drop tail.length).reverse)

/-- Go's `filepath.Base`: the final element after stripping trailing
slashes; `"."` for the empty path, `"/"` for a path of only slashes. -/
def goBase (s : String) : String :=
  if s = "" then "."
  else
    let rev := s.data.reverse.dropWhile (fun c => c == '/')
    if rev.isEmpty then "/"
    else String.mk (rev.takeWhile (fun c => c != '/')).reverse

/-- Go's `filepath.Ext`: the suffix starting at the final dot in the final
slash-separated element, `""` when that element holds no dot. -/
def goExt (s : String) : String :=
  let rev := s.data.reverse.takeWhile (fun c => c != '/')
  let pre := rev.takeWhile (fun c => c != '.')
  if pre.length = rev.length then ""
  else String.mk ((rev.take (pre.length + 1)).reverse)

/-- Go's `filepath.Join`: drop leading empty elements, join the rest with
`"/"` and clean; `""` when every element is empty. -/
def goJoin (elems : List String) : String :=
  match elems.dropWhile (fun e => e.data.isEmpty) with
  | [] => ""
  | rest => goClean (String.mk (joinComps (rest.map String.data)))

/-- Helper for `strIndex`: position of the first suffix of the second list
that starts with `sub`. -/
def idxAux (sub : List Char) : List Char → Option Nat
  | [] => if sub.isPrefixOf ([] : List Char) then some 0 else none
  | c :: t =>
    if sub.isPrefixOf (c :: t) then some 0
    else (idxAux sub t).map (fun n => n + 1)

/-- Go's `strings.Index` (position of the first occurrence of `sub` in `s`),
returning `none` in place of `-1`. -/
def strIndex (s sub : String) : Option Nat := idxAux sub.data s.data

/-- Go's `strings.Contains`, via `strIndex`. -/
def containsSub (s sub : String) : Bool := (strIndex s sub).isSome

/-- Drop the first `n` characters of a string, modelling Go's slice
`s[n:]` on ASCII strings. -/
def strDrop (s : String) (n : Nat) : String := String.mk (s.data.drop n)

/-- Go's `path.Ext(path) == ".IMA"` check (`isImaFile` in main.go). -/
def isImaFile (path : String) : Bool := goExt path = ".IMA"

/-- Go's `path.Ext(path) == ".zip"` check (`isZipFile` in main.go). -/
def isZipFile (path : String) : Bool := goExt path = ".zip"

/-! ## Collection Deduplicator (main.go, lines 96-129) -/

/-- Helper for `hasSeriesPat`: a window of three ASCII digits followed by
`-` occurs somewhere in the character list. -/
def seriesAux : List Char → Bool
  | [] => false
  | a :: t =>
    (match t with
     | b :: c :: d :: _ => a.isDigit && b.isDigit && c.isDigit && d == '-'
     | _ => false) || seriesAux t

/-- The unanchored regular-expression test
`regexp.MatchString("[0-9]{3}-.*", line)`: the line contains three digits
followed by a dash somewhere. -/
def hasSeriesPat (s : String) : Bool := seriesAux s.data

/-- One iteration of the deduplication goroutine on a stdout line.  The
state is the Seen-Set (`collMap`, as the list of keys marked true) together
with the lines forwarded so far to `chanColls`.  A line matching the series
pattern is forwarded only when `filepath.Dir(line)` is not yet in the
Seen-Set, which is then extended; any other line is forwarded
unconditionally. -/
def dedupStep (st : List String × List String) (line : String) :
    List String × List String :=
  if hasSeriesPat line then
    if st.1.contains (goDir line) then st
    else (goDir line :: st.1, st.2 ++ [line])
  else (st.1, st.2 ++ [line])

/-- The deduplication goroutine run over a whole stdout stream, starting
from an empty Seen-Set. -/
def dedupRun (lines : List String) : List String × List String :=
  lines.foldl dedupStep ([], [])

/-! ## File Selector (main.go, lines 146-161) -/

/-- The sentinel substring marking an empty iquest result. -/
def noRowsSentinel : String := "CAT_NO_ROWS_FOUND"

/-- The per-collection selection loop over the stdout lines of the
per-collection iquest query: sentinel rows are skipped, `.zip` results are
forwarded with the loop continuing, and the first other result is forwarded
with the loop breaking. -/
def selectFiles : List String → List String
  | [] => []
  | l :: rest =>
    if containsSub l noRowsSentinel then selectFiles rest
    else if isZipFile l then l :: selectFiles rest
    else [l]

/-! ## Gzipped-tar extraction (DicomExtractorTgz.Extract; main.go, lines 289-333) -/

/-- Tar entry kinds relevant to the extraction loop: `tar.TypeDir`,
`tar.TypeReg`, and anything else (which the loop silently skips). -/
inductive TarType where
  | dir : TarType
  | reg : TarType
  | other : TarType
deriving DecidableEq, Repr

/-- One tar header plus the content of its entry; `mode` holds the
file-mode bits of the header. -/
structure TarEntry where
  name : String
  typeflag : TarType
  mode : Nat
  content : List Nat
deriving DecidableEq, Repr

/-- A file written by `copyReaderToPath`: path, content and mode bits. -/
structure WrittenFile where
  path : String
  content : List Nat
  mode : Nat
deriving DecidableEq, Repr

/-- Errors of the extraction loop and of the surrounding open calls. -/
inductive ExtractErr where
  | emptyArchive (loc : String) : ExtractErr
  | copyFail : ExtractErr
  | openFail : ExtractErr
deriving DecidableEq, Repr

/-- The `tr.Next()` loop shared by `DicomExtractorTgz.Extract` and
`downloadDicom`: directory entries (and entries of any other non-regular
type) are skipped; the first regular entry is copied to
`filepath.Join(dir, filepath.Base(h.Name))` with the header's mode bits and
the loop returns its path; end-of-stream without a regular entry is the
empty-archive error.  `copyOk` abstracts success of `copyReaderToPath`;
the returned list holds the successfully written files. -/
def tgzLoop (dir loc : String) (copyOk : String → Bool) :
    List TarEntry → Except ExtractErr String × List WrittenFile
  | [] => (Except.error (ExtractErr.emptyArchive loc), [])
  | e :: rest =>
    match e.typeflag with
    | TarType.dir => tgzLoop dir loc copyOk rest
    | TarType.other => tgzLoop dir loc copyOk rest
    | TarType.reg =>
      let out := goJoin [dir, goBase e.name]
      if copyOk out then (Except.ok out, [⟨out, e.content, e.mode⟩])
      else (Except.error ExtractErr.copyFail, [])

/-- Outcome of `DicomExtractorTgz.Extract`: the returned value, the files
written, and whether `os.Remove(pathArchive)` ran. -/
structure ExtractResult where
  result : Except ExtractErr String
  written : List WrittenFile
  archiveRemoved : Bool
deriving Repr

/-- `DicomExtractorTgz.Extract`: when the file/gzip layers open
(`openOk`), the deferred `os.Remove` is installed, so the archive is
removed on every path out of the loop; when opening fails the function
returns before the defer is installed and the archive stays. -/
def tgzExtract (openOk : Bool) (copyOk : String → Bool)
    (entries : List TarEntry) (pathArchive : String) : ExtractResult :=
  if openOk then
    let r := tgzLoop (goDir pathArchive) pathArchive copyOk entries
    ⟨r.1, r.2, true⟩
  else ⟨Except.error ExtractErr.openFail, [], false⟩

/-! ## downloadDicom (main.go, lines 246-333) -/

/-- Error taxonomy of `downloadDicom`. `unknownPath` is the
path-resolution failure (`"unknown path: ..."`). -/
inductive DrError where
  | unknownPath (path : String) : DrError
  | mkdirFail (dir : String) : DrError
  | transferFail : DrError
  | extractFail (e : ExtractErr) : DrError
deriving DecidableEq, Repr

/-- Externally visible actions of `downloadDicom`, in program order:
`os.MkdirAll`, the `iget` fetch, files written by `copyReaderToPath`,
the `cmd.sh` companion file of `makeDownloadCmd`, and `os.Remove`. -/
inductive Effect where
  | mkdirAll (dir : String) : Effect
  | fetch (remote loc : String) : Effect
  | writeFile (path : String) (content : List Nat) (mode : Nat) : Effect
  | writeCmdSh (destDir srcDir : String) : Effect
  | removeFile (path : String) : Effect
deriving DecidableEq, Repr

/-- Oracles for the external world: success of `os.MkdirAll`, of the
`iget` run, of opening the downloaded file as a gzip stream, of
`copyReaderToPath`, and the tar entries found in the archive downloaded
to a given local path. -/
structure World where
  mkdirOk : String → Bool
  fetchOk : String → Bool
  openOk : String → Bool
  copyOk : String → Bool
  archive : String → List TarEntry

/-- Result of `downloadDicom`: the returned value plus the trace of
external effects in order. -/
structure DDResult where
  result : Except DrError String
  effects : List Effect
deriving Repr

/-- The local-destination computation of `downloadDicom` (main.go, lines
253-259), given the position `i` of the date inside the remote path: join
the destination root, the date, and the remote path after `i+8`; an `.IMA`
destination is relocated one directory level up, to the session folder. -/
def resolveLoc (date ddir path : String) (i : Nat) : String :=
  let loc := goJoin [ddir, date, strDrop path (i + 8)]
  if isImaFile loc then goJoin [goDir (goDir loc), goBase loc] else loc

/-- The body of `downloadDicom`: resolve the local path (failing when the
date does not occur in the remote path), create the directory, fetch, and
then keep `.zip` files as they are, keep `.IMA` files (writing `cmd.sh`),
or extract the first regular entry of the gzipped tar, removing the
archive afterwards via the deferred `os.Remove`. -/
def downloadDicom (w : World) (date ddir path : String) : DDResult :=
  match strIndex path date with
  | none => ⟨Except.error (DrError.unknownPath path), []⟩
  | some i =>
    let loc := resolveLoc date ddir path i
    let dir := goDir loc
    if ¬ w.mkdirOk dir then
      ⟨Except.error (DrError.mkdirFail dir), [Effect.mkdirAll dir]⟩
    else
      let eff0 := [Effect.mkdirAll dir, Effect.fetch path loc]
      if ¬ w.fetchOk loc then ⟨Except.error DrError.transferFail, eff0⟩
      else if isZipFile loc then ⟨Except.ok loc, eff0⟩
      else if isImaFile loc then
        ⟨Except.ok loc, eff0 ++ [Effect.writeCmdSh dir (goDir (goDir path))]⟩
      else if ¬ w.openOk loc then
        ⟨Except.error (DrError.extractFail ExtractErr.openFail), eff0⟩
      else
        match tgzLoop dir loc w.copyOk (w.archive loc) with
        | (Except.ok fdicom, written) =>
          ⟨Except.ok fdicom,
           eff0 ++ written.map (fun f => Effect.writeFile f.path f.content f.mode)
                ++ [Effect.writeCmdSh dir (goDir path), Effect.removeFile loc]⟩
        | (Except.error e, written) =>
          ⟨Except.error (DrError.extractFail e),
           eff0 ++ written.map (fun f => Effect.writeFile f.path f.content f.mode)
                ++ [Effect.removeFile loc]⟩

/-! ## Retrieval worker loop (main.go, lines 179-193) -/

/-- One retrieval worker run over the items it receives from `chanFiles`:
each item is passed to the download operation; a success is emitted on
`chanDicoms`, an error is logged and the loop continues with the next
item.  Returns the emitted artifacts and the logged errors, in order. -/
def retrieveWorker (dl : String → Except DrError String) :
    List String → List String × List DrError
  | [] => ([], [])
  | f :: rest =>
    let r := retrieveWorker dl rest
    match dl f with
    | Except.ok a => (a :: r.1, r.2)
    | Except.error e => (r.1, e :: r.2)

/-! ## Worker pool with counted completion tokens
(main.go, lines 162-217: the worker loops, `chanSync`, and `waitWorkers`) -/

/-- Status of one worker goroutine: waiting on its input channel, holding
an item it has not yet emitted results for, or finished (it observed the
input channel closed and sent its completion token). -/
inductive WStatus (α : Type) where
  | idle : WStatus α
  | busy : α → WStatus α
  | done : WStatus α

/-- Whether a worker has finished. -/
def WStatus.isDone {α : Type} : WStatus α → Bool
  | WStatus.done => true
  | _ => false

/-- State of one worker pool: the input channel (buffer plus closed flag),
the `W` workers, the completion tokens in flight on `chanSync` and the
count received by `waitWorkers`, and the output channel. -/
structure PoolState (α β : Type) (W : Nat) where
  inputBuf : List α
  inputClosed : Bool
  workers : Fin W → WStatus α
  tokens : Nat
  received : Nat
  outputBuf : List β
  outputClosed : Bool

/-- Initial pool state: empty open channels, all workers idle, no tokens. -/
def PoolState.init (α β : Type) (W : Nat) : PoolState α β W :=
  ⟨[], false, fun _ => WStatus.idle, 0, 0, [], false⟩

/-- Small-step semantics of the pool.  `f` maps an item to the result the
worker emits for it (`none` models a dropped item).  `produce` and
`closeInput` are the upstream stage; `take`/`emit` are a worker's channel
receive and send; `finish` is a worker observing the closed, drained input
and sending its single token on `chanSync`; `recvToken` and `closeOutput`
are `waitWorkers` and the closer goroutine closing the output channel
after `W` tokens. -/
inductive Step {α β : Type} {W : Nat} (f : α → Option β) :
    PoolState α β W → PoolState α β W → Prop where
  | produce (s : PoolState α β W) (x : α) (h : s.inputClosed = false) :
      Step f s { s with inputBuf := s.inputBuf ++ [x] }
  | closeInput (s : PoolState α β W) (h : s.inputClosed = false) :
      Step f s { s with inputClosed := true }
  | take (s : PoolState α β W) (i : Fin W) (x : α) (rest : List α)
      (hw : s.workers i = WStatus.idle) (hb : s.inputBuf = x :: rest) :
      Step f s { s with inputBuf := rest,
                        workers := Function.update s.workers i (WStatus.busy x) }
  | emit (s : PoolState α β W) (i : Fin W) (x : α)
      (hw : s.workers i = WStatus.busy x) :
      Step f s { s with workers := Function.update s.workers i WStatus.idle,
                        outputBuf := s.outputBuf ++ (f x).toList }
  | finish (s : PoolState α β W) (i : Fin W)
      (hw : s.workers i = WStatus.idle) (hc : s.inputClosed = true)
      (hb : s.inputBuf = []) :
      Step f s { s with workers := Function.update s.workers i WStatus.done,
                        tokens := s.tokens + 1 }
  | recvToken (s : PoolState α β W) (t : Nat) (h : s.tokens = t + 1) :
      Step f s { s with tokens := t, received := s.received + 1 }
  | closeOutput (s : PoolState α β W) (h : s.received = W)
      (h2 : s.outputClosed = false) :
      Step f s { s with outputClosed := true }

/-- Reachability from the initial pool state. -/
inductive Reaches {α β : Type} {W : Nat} (f : α → Option β) :
    PoolState α β W → Prop where
  | init : Reaches f (PoolState.init α β W)
  | step {s s' : PoolState α β W} :
      Reaches f s → Step f s s' → Reaches f s'

/-- The set of finished workers. -/
def doneSet {α β : Type} {W : Nat} (s : PoolState α β W) : Finset (Fin W) :=
  Finset.univ.filter (fun i => (s.workers i).isDone = true)

/-- Inductive invariant of the pool: finished workers match the tokens
sent; a finished worker has seen the input closed; when every worker is
finished the input buffer is drained; and a closed output means all `W`
tokens were received and none is in flight. -/
def PoolInv {α β : Type} {W : Nat} (s : PoolState α β W) : Prop :=
  (doneSet s).card = s.tokens + s.received
  ∧ (∀ i, (s.workers i).isDone = true → s.inputClosed = true)
  ∧ (0 < W → (∀ i, (s.workers i).isDone = true) → s.inputBuf = [])
  ∧ (s.outputClosed = true → s.received = W ∧ s.tokens = 0)

/-! ## Theorems -/

/-- Helper: the world in which every external operation succeeds and every
archive is empty, used to instantiate theorems on concrete inputs. -/
def demoWorld : World :=
  ⟨fun _ => true, fun _ => true, fun _ => true, fun _ => true, fun _ => []⟩

/-- C2: the File Selector forwards, out of the sentinel-free rows in
enumeration order, exactly the `.zip` results preceding the first non-zip
result plus that first non-zip result (all rows when every row is a zip),
and forwards nothing on an empty listing. -/
theorem selectFiles_zips_then_first_other (rows : List String) :
    selectFiles rows =
      (rows.filter (fun l => !(containsSub l noRowsSentinel))).takeWhile isZipFile
        ++ ((rows.filter (fun l => !(containsSub l noRowsSentinel))).dropWhile
              isZipFile).take 1 := by
  induction rows with
  | nil => rfl
  | cons l rest ih =>
    simp only [List.filter_cons]
    by_cases h1 : containsSub l noRowsSentinel = true
    · simpa [selectFiles, h1] using ih
    · simp only [Bool.not_eq_true] at h1
      by_cases h2 : isZipFile l = true
      · simp [selectFiles, h1, h2, ih]
      · simp [selectFiles, h1, h2]

/-- C9: an error returned by the download operation for one item is
logged, produces no artifact, and the worker continues with the remaining
items exactly as if the failing item were absent. -/
theorem retrieveWorker_error_isolated (dl : String → Except DrError String)
    (f : String) (rest : List String) (e : DrError)
    (h : dl f = Except.error e) :
    retrieveWorker dl (f :: rest) =
      ((retrieveWorker dl rest).1, e :: (retrieveWorker dl rest).2) := by
  simp [retrieveWorker, h]

/-- Witness for C9: a remote name without the date marker fails path
resolution; the worker logs the error, emits nothing, and finishes the
rest of its input. -/
theorem retrieveWorker_error_isolated_witness :
    retrieveWorker
        (fun p => (downloadDicom demoWorld "20240101" "/data" p).result)
        ["/no/date/here"]
      = ([], [DrError.unknownPath "/no/date/here"]) := by
  rw [retrieveWorker_error_isolated
    (fun p => (downloadDicom demoWorld "20240101" "/data" p).result)
    "/no/date/here" [] (DrError.unknownPath "/no/date/here") rfl]
  rfl

/-- Helper for C7: the extraction loop over entries none of which is a
regular file ends in the empty-archive error without writing anything. -/
theorem tgzLoop_no_reg (dir loc : String) (copyOk : String → Bool) :
    ∀ entries : List TarEntry, (∀ e ∈ entries, e.typeflag ≠ TarType.reg) →
      tgzLoop dir loc copyOk entries
        = (Except.error (ExtractErr.emptyArchive loc), []) := by
  intro entries h
  induction entries with
  | nil => rfl
  | cons e rest ih =>
    have he := h e (by simp)
    have hr : ∀ x ∈ rest, x.typeflag ≠ TarType.reg :=
      fun x hx => h x (by simp [hx])
    cases hef : e.typeflag with
    | dir => simpa [tgzLoop, hef] using ih hr
    | other => simpa [tgzLoop, hef] using ih hr
    | reg => exact absurd hef he

/-- C7: a gzipped tar archive with no regular-file entry before
end-of-stream makes extraction fail with the empty-archive error, with no
extracted output file and no returned path. -/
theorem tgzExtract_empty_archive (entries : List TarEntry) (path : String)
    (copyOk : String → Bool)
    (h : ∀ e ∈ entries, e.typeflag ≠ TarType.reg) :
    (tgzExtract true copyOk entries path).result
        = Except.error (ExtractErr.emptyArchive path)
      ∧ (tgzExtract true copyOk entries path).written = [] := by
  have hl := tgzLoop_no_reg (goDir path) path copyOk entries h
  simp [tgzExtract, hl]

/-- Witness for C7: an archive holding only a directory entry. -/
theorem tgzExtract_empty_archive_witness :
    (tgzExtract true (fun _ => true) [⟨"ses", TarType.dir, 493, []⟩]
        "/data/x.tar.gz").result
        = Except.error (ExtractErr.emptyArchive "/data/x.tar.gz")
      ∧ (tgzExtract true (fun _ => true) [⟨"ses", TarType.dir, 493, []⟩]
        "/data/x.tar.gz").written = [] :=
  tgzExtract_empty_archive [⟨"ses", TarType.dir, 493, []⟩] "/data/x.tar.gz"
    (fun _ => true) (by decide)

/-- C3: extracting an archive whose entries are a directory entry followed
by regular files A and B yields exactly one written file — A's content and
mode bits, in the archive's directory, under A's base name — removes the
archive, and returns that file's path; B is never extracted. -/
theorem tgzExtract_roundtrip (pd pa pb : TarEntry) (path : String)
    (copyOk : String → Bool)
    (hd : pd.typeflag = TarType.dir) (ha : pa.typeflag = TarType.reg)
    (_hb : pb.typeflag = TarType.reg)
    (hc : copyOk (goJoin [goDir path, goBase pa.name]) = true) :
    tgzExtract true copyOk [pd, pa, pb] path =
      ⟨Except.ok (goJoin [goDir path, goBase pa.name]),
       [⟨goJoin [goDir path, goBase pa.name], pa.content, pa.mode⟩],
       true⟩ := by
  simp [tgzExtract, tgzLoop, hd, ha, hc]

/-- Witness for C3: a concrete archive `[ses/, ses/a.IMA, ses/b.IMA]`
extracted next to `/data/20240101/x/y.tar.gz`. -/
theorem tgzExtract_roundtrip_witness :
    tgzExtract true (fun _ => true)
        [⟨"ses", TarType.dir, 493, []⟩,
         ⟨"ses/a.IMA", TarType.reg, 420, [1, 2, 3]⟩,
         ⟨"ses/b.IMA", TarType.reg, 420, [4, 5, 6]⟩]
        "/data/20240101/x/y.tar.gz"
      = ⟨Except.ok "/data/20240101/x/a.IMA",
         [⟨"/data/20240101/x/a.IMA", [1, 2, 3], 420⟩], true⟩ :=
  (tgzExtract_roundtrip ⟨"ses", TarType.dir, 493, []⟩
    ⟨"ses/a.IMA", TarType.reg, 420, [1, 2, 3]⟩
    ⟨"ses/b.IMA", TarType.reg, 420, [4, 5, 6]⟩
    "/data/20240101/x/y.tar.gz" (fun _ => true) rfl rfl rfl rfl).trans (by rfl)

/-- C10: whenever the gzip layer opens, the deferred remove runs, so the
archive is gone by the time extraction returns — on success, on the
empty-archive error, and on a copy error alike. -/
theorem tgzExtract_always_removes (copyOk : String → Bool)
    (entries : List TarEntry) (path : String) :
    (tgzExtract true copyOk entries path).archiveRemoved = true := by
  simp [tgzExtract]

/-- Helper for C8: whenever the date does occur in the remote path, the
result of `downloadDicom` is never the path-resolution error. -/
theorem downloadDicom_some_ne_unknown (w : World) (date ddir path : String)
    (i : Nat) (hidx : strIndex path date = some i) (p : String) :
    (downloadDicom w date ddir path).result
      ≠ Except.error (DrError.unknownPath p) := by
  intro hres
  simp only [downloadDicom, hidx] at hres
  split at hres
  · simp at hres
  · split at hres
    · simp at hres
    · split at hres
      · simp at hres
      · split at hres
        · simp at hres
        · split at hres
          · simp at hres
          · split at hres <;> simp at hres

/-- C8: `downloadDicom` fails with the path-resolution error exactly when
the configured date string does not occur in the remote name, and on that
failure it performs no external action at all (no directory creation, no
fetch). -/
theorem downloadDicom_pathResolution (w : World) (date ddir path : String) :
    ((downloadDicom w date ddir path).result
        = Except.error (DrError.unknownPath path)
      ↔ strIndex path date = none)
    ∧ (strIndex path date = none
        → (downloadDicom w date ddir path).effects = []) := by
  cases hidx : strIndex path date with
  | none => simp [downloadDicom, hidx]
  | some i =>
    refine ⟨⟨fun hres => ?_, fun hnone => ?_⟩, fun hnone => ?_⟩
    · exact absurd hres (downloadDicom_some_ne_unknown w date ddir path i hidx path)
    · simp at hnone
    · simp at hnone

/-- Witness for C8: a remote name without the date marker yields the
path-resolution error and an empty effect trace. -/
theorem downloadDicom_pathResolution_witness :
    (downloadDicom demoWorld "20240101" "/data" "/rdm/di/x.tar.gz").result
        = Except.error (DrError.unknownPath "/rdm/di/x.tar.gz")
      ∧ (downloadDicom demoWorld "20240101" "/data" "/rdm/di/x.tar.gz").effects
        = [] := by
  have h := downloadDicom_pathResolution demoWorld "20240101" "/data"
    "/rdm/di/x.tar.gz"
  exact ⟨h.1.mpr rfl, h.2 rfl⟩

/-- Helper for C5: when `strIndex` reports position `i`, the pattern is a
prefix of the suffix of the text starting at `i`. -/
theorem idxAux_prefix (sub : List Char) :
    ∀ (cs : List Char) (i : Nat), idxAux sub cs = some i
      → sub.isPrefixOf (cs.drop i) = true := by
  intro cs
  induction cs with
  | nil =>
    intro i h
    simp only [idxAux] at h
    split at h
    · cases h; simpa using ‹sub.isPrefixOf ([] : List Char) = true›
    · cases h
  | cons c t ih =>
    intro i h
    simp only [idxAux] at h
    split at h
    · cases h; simpa using ‹sub.isPrefixOf (c :: t) = true›
    · cases hx : idxAux sub t with
      | none => rw [hx] at h; simp at h
      | some j =>
        rw [hx] at h
        simp only [Option.map_some'] at h
        cases h
        simpa using ih j hx

/-- C5: for a remote name in which the 8-character date marker occurs at
position `i`, the remote name decomposes around the marker, and the local
destination computed by `downloadDicom` is the destination root joined
with the date and with everything after the marker — relocated one
directory level up when the resolved file is a single-file `.IMA` DICOM
object. -/
theorem resolveLoc_maps_after_marker (date ddir path : String) (i : Nat)
    (h8 : date.length = 8) (hi : strIndex path date = some i) :
    path.data
        = path.data.take i ++ date.data ++ path.data.drop (i + date.length)
    ∧ resolveLoc date ddir path i
        = (if isImaFile (goJoin [ddir, date, strDrop path (i + date.length)])
           then goJoin
             [goDir (goDir (goJoin [ddir, date, strDrop path (i + date.length)])),
              goBase (goJoin [ddir, date, strDrop path (i + date.length)])]
           else goJoin [ddir, date, strDrop path (i + date.length)]) := by
  constructor
  · have hp : date.data <+: path.data.drop i := by
      have := idxAux_prefix date.data path.data i hi
      exact List.isPrefixOf_iff_prefix.mp this
    obtain ⟨r, hr⟩ := hp
    have hsplit : path.data = path.data.take i ++ path.data.drop i :=
      (List.take_append_drop i path.data).symm
    have hdrop : path.data.drop (i + date.length) = r := by
      have h1 : path.data.drop (i + date.length)
          = (path.data.drop i).drop date.length := by
        rw [List.drop_drop, Nat.add_comm]
      rw [h1, ← hr]
      have : date.length = date.data.length := rfl
      rw [this, List.drop_left]
    rw [hdrop, List.append_assoc, hr]
    exact hsplit
  · rw [h8]
    rfl

/-- Witness for C5: date `20240101`, root `/data`, and a remote name ending
in `20240101/seriesX/001-foo/file.IMA` resolve to the session-level
directory, not the series folder. -/
theorem resolveLoc_maps_after_marker_witness :
    strIndex "/rdm/di/dccn/DAC/raw/sub-01/20240101/seriesX/001-foo/file.IMA"
        "20240101" = some 28
    ∧ resolveLoc "20240101" "/data"
        "/rdm/di/dccn/DAC/raw/sub-01/20240101/seriesX/001-foo/file.IMA" 28
      = "/data/20240101/seriesX/file.IMA" := by
  have h := resolveLoc_maps_after_marker "20240101" "/data"
    "/rdm/di/dccn/DAC/raw/sub-01/20240101/seriesX/001-foo/file.IMA" 28 rfl rfl
  exact ⟨rfl, h.2.trans (by rfl)⟩

/-- C6 counterexample: for the matching name `/a/b/001-foo` the
Deduplicator stores the parent directory `/a/b` in the Seen-Set, which is
not the parent-of-parent `/a` stated by the claim. -/
theorem dedup_key_counterexample :
    hasSeriesPat "/a/b/001-foo" = true
    ∧ dedupRun ["/a/b/001-foo"] = (["/a/b"], ["/a/b/001-foo"])
    ∧ goDir (goDir "/a/b/001-foo") = "/a"
    ∧ ("/a/b" : String) ≠ "/a" :=
  ⟨rfl, rfl, rfl, by decide⟩

/-- C6 amended: for every name matching the series pattern, the dedup key
consulted and inserted by the Deduplicator is the name's parent directory
(`filepath.Dir` applied once). -/
theorem dedup_key_is_parent (st : List String × List String) (line : String)
    (h : hasSeriesPat line = true) :
    dedupStep st line
      = (if st.1.contains (goDir line) then st
         else (goDir line :: st.1, st.2 ++ [line])) := by
  simp [dedupStep, h]

/-- Witness for the amended C6: processing `/a/b/001-foo` from the empty
state inserts the parent directory `/a/b`. -/
theorem dedup_key_is_parent_witness :
    dedupStep ([], []) "/a/b/001-foo" = (["/a/b"], ["/a/b/001-foo"]) :=
  (dedup_key_is_parent ([], []) "/a/b/001-foo" rfl).trans (by rfl)

/-! ## C1: deduplication invariants -/

/-- A forwarded name counts against dedup key `k` when it matches the
series pattern and its computed key equals `k`. -/
def keyMatch (k o : String) : Bool := hasSeriesPat o && (goDir o == k)

/-- Helper: one deduplication step preserves the bound tying forwarded
names per key to Seen-Set membership. -/
theorem dedup_inv_step (st : List String × List String) (line : String)
    (h : ∀ k, (st.2.filter (keyMatch k)).length
          ≤ (if k ∈ st.1 then 1 else 0)) :
    ∀ k, ((dedupStep st line).2.filter (keyMatch k)).length
          ≤ (if k ∈ (dedupStep st line).1 then 1 else 0) := by
  intro k
  by_cases hm : hasSeriesPat line = true
  · by_cases hc : goDir line ∈ st.1
    · simpa [dedupStep, hm, hc] using h k
    · by_cases hk : goDir line = k
      · have hsk : k ∉ st.1 := fun hmem => hc (hk ▸ hmem)
        have h0 : (st.2.filter (keyMatch k)).length = 0 :=
          Nat.le_zero.mp (by simpa [hsk] using h k)
        have hline : keyMatch k line = true := by simp [keyMatch, hm, hk]
        simp [dedupStep, hm, hsk, List.filter_append, List.filter_cons, h0,
          hline, hk]
      · have hline : keyMatch k line = false := by simp [keyMatch, hk]
        have hkneq : ¬(k = goDir line) := fun he => hk he.symm
        simpa [dedupStep, hm, hc, List.filter_append, List.filter_cons,
          hline, List.mem_cons, hkneq] using h k
  · have hm' : hasSeriesPat line = false := by simpa using hm
    have hline : keyMatch k line = false := by simp [keyMatch, hm']
    simpa [dedupStep, hm', List.filter_append, List.filter_cons, hline]
      using h k

/-- Helper: the per-key bound is preserved along a whole fold of the
deduplication step. -/
theorem dedup_inv_fold (lines : List String) :
    ∀ st : List String × List String,
      (∀ k, (st.2.filter (keyMatch k)).length ≤ (if k ∈ st.1 then 1 else 0)) →
      ∀ k, ((List.foldl dedupStep st lines).2.filter (keyMatch k)).length
        ≤ (if k ∈ (List.foldl dedupStep st lines).1 then 1 else 0) := by
  induction lines with
  | nil => intro st h; simpa using h
  | cons l ls ih =>
    intro st h
    simpa [List.foldl_cons] using ih (dedupStep st l) (dedup_inv_step st l h)

/-- Helper: the Deduplicator only appends input lines to its output, so
the output is a sublist of the input extended from the initial output. -/
theorem dedup_out_sublist (lines : List String) :
    ∀ st : List String × List String,
      ∃ t, (List.foldl dedupStep st lines).2 = st.2 ++ t
        ∧ List.Sublist t lines := by
  induction lines with
  | nil => intro st; exact ⟨[], by simp, List.nil_sublist []⟩
  | cons l ls ih =>
    intro st
    obtain ⟨t, ht, hs⟩ := ih (dedupStep st l)
    by_cases hm : hasSeriesPat l = true
    · by_cases hc : goDir l ∈ st.1
      · refine ⟨t, ?_, hs.trans (List.sublist_cons_self l ls)⟩
        simp only [List.foldl_cons]
        rw [ht]
        have : dedupStep st l = st := by simp [dedupStep, hm, hc]
        rw [this]
      · refine ⟨l :: t, ?_, hs.cons₂ l⟩
        simp only [List.foldl_cons]
        rw [ht]
        have : (dedupStep st l).2 = st.2 ++ [l] := by simp [dedupStep, hm, hc]
        rw [this, List.append_assoc]
        rfl
    · have hm' : hasSeriesPat l = false := by simpa using hm
      refine ⟨l :: t, ?_, hs.cons₂ l⟩
      simp only [List.foldl_cons]
      rw [ht]
      have : (dedupStep st l).2 = st.2 ++ [l] := by simp [dedupStep, hm']
      rw [this, List.append_assoc]
      rfl

/-- Helper: lines that do not match the series pattern pass through the
Deduplicator unconditionally, in order. -/
theorem dedup_out_nonmatching (lines : List String) :
    ∀ st : List String × List String,
      (List.foldl dedupStep st lines).2.filter (fun o => !(hasSeriesPat o))
        = st.2.filter (fun o => !(hasSeriesPat o))
          ++ lines.filter (fun o => !(hasSeriesPat o)) := by
  induction lines with
  | nil => intro st; simp
  | cons l ls ih =>
    intro st
    simp only [List.foldl_cons]
    rw [ih (dedupStep st l)]
    by_cases hm : hasSeriesPat l = true
    · by_cases hc : goDir l ∈ st.1
      · simp [dedupStep, hm, hc, List.filter_cons]
      · simp [dedupStep, hm, hc, List.filter_cons, List.filter_append]
    · have hm' : hasSeriesPat l = false := by simpa using hm
      simp [dedupStep, hm', List.filter_cons, List.filter_append]

/-- C1: over any input stream, the Deduplicator forwards at most one name
per dedup key among the series-matching names; a matching name whose key
is already seen changes nothing; every forwarded name is an unchanged
input name in input order; and names not matching the series pattern are
forwarded unconditionally. -/
theorem dedup_at_most_once (lines : List String) :
    (∀ k : String, ((dedupRun lines).2.filter (keyMatch k)).length ≤ 1)
    ∧ List.Sublist (dedupRun lines).2 lines
    ∧ (dedupRun lines).2.filter (fun o => !(hasSeriesPat o))
        = lines.filter (fun o => !(hasSeriesPat o))
    ∧ ∀ (st : List String × List String) (line : String),
        hasSeriesPat line = true → goDir line ∈ st.1
          → dedupStep st line = st := by
  refine ⟨fun k => ?_, ?_, ?_, fun st line hm hc => by simp [dedupStep, hm, hc]⟩
  · have h := dedup_inv_fold lines ([], []) (fun k => by simp) k
    refine h.trans ?_
    split <;> simp
  · obtain ⟨t, ht, hs⟩ := dedup_out_sublist lines ([], [])
    simpa [dedupRun, ht] using hs
  · simpa [dedupRun] using dedup_out_nonmatching lines ([], [])

/-- Witness for C1: on a concrete stream with two names sharing the key
`/a/b`, at most one name with that key is forwarded, and a matching name
whose key is already seen leaves the state unchanged. -/
theorem dedup_at_most_once_witness :
    ((dedupRun ["/a/b/001-x", "/a/b/002-y", "/plain"]).2.filter
        (keyMatch "/a/b")).length ≤ 1
    ∧ dedupStep (["/a/b"], ["/a/b/001-x"]) "/a/b/002-y"
        = (["/a/b"], ["/a/b/001-x"]) := by
  have h := dedup_at_most_once ["/a/b/001-x", "/a/b/002-y", "/plain"]
  exact ⟨h.1 "/a/b",
    h.2.2.2 (["/a/b"], ["/a/b/001-x"]) "/a/b/002-y" rfl (by decide)⟩

/-! ## C4: completion signaling of a worker pool -/

/-- Helper: updating a worker to a non-done status from a non-done status
leaves the set of finished workers unchanged. -/
theorem doneFilter_update_skip {α : Type} {W : Nat} (w : Fin W → WStatus α)
    (i : Fin W) (v : WStatus α) (hv : v.isDone = false)
    (hwi : (w i).isDone = false) :
    (Finset.univ.filter
        (fun j => ((Function.update w i v) j).isDone = true))
      = Finset.univ.filter (fun j => (w j).isDone = true) := by
  ext j
  by_cases hj : j = i
  · subst hj
    simp [Finset.mem_filter, Function.update_same, hv, hwi]
  · simp [Finset.mem_filter, Function.update_noteq hj]

/-- Helper: marking a not-yet-finished worker as done inserts it into the
set of finished workers. -/
theorem doneFilter_update_done {α : Type} {W : Nat} (w : Fin W → WStatus α)
    (i : Fin W) :
    (Finset.univ.filter
        (fun j => ((Function.update w i WStatus.done) j).isDone = true))
      = insert i (Finset.univ.filter (fun j => (w j).isDone = true)) := by
  ext j
  by_cases hj : j = i
  · subst hj
    simp [Finset.mem_filter, Function.update_same, WStatus.isDone]
  · simp [Finset.mem_filter, Function.update_noteq hj, hj]

/-- Helper: at most `W` workers can be finished. -/
theorem doneSet_card_le {α β : Type} {W : Nat} (s : PoolState α β W) :
    (doneSet s).card ≤ W := by
  refine le_trans (Finset.card_filter_le _ _) ?_
  simp [Finset.card_univ]

/-- Helper: each transition of the pool preserves the pool invariant. -/
theorem poolInv_step {α β : Type} {W : Nat} (f : α → Option β)
    {s s' : PoolState α β W} (hs : PoolInv s) (hstep : Step f s s') :
    PoolInv s' := by
  obtain ⟨h1, h2, h3, h4⟩ := hs
  cases hstep with
  | produce x h =>
    refine ⟨h1, h2, ?_, h4⟩
    intro hW hall
    exact absurd (h2 ⟨0, hW⟩ (hall ⟨0, hW⟩)) (by simp [h])
  | closeInput h =>
    exact ⟨h1, fun i _ => rfl, fun hW hall => h3 hW hall, h4⟩
  | take i x rest hw hb =>
    have hwi : (s.workers i).isDone = false := by rw [hw]; rfl
    refine ⟨?_, ?_, ?_, h4⟩
    · dsimp only [doneSet]
      rw [doneFilter_update_skip s.workers i (WStatus.busy x) rfl hwi]
      exact h1
    · intro j hj
      by_cases hji : j = i
      · subst hji
        simp [WStatus.isDone] at hj
      · simp only [Function.update_noteq hji] at hj
        exact h2 j hj
    · intro hW hall
      exact absurd (hall i) (by simp [WStatus.isDone])
  | emit i x hw =>
    have hwi : (s.workers i).isDone = false := by rw [hw]; rfl
    refine ⟨?_, ?_, ?_, h4⟩
    · dsimp only [doneSet]
      rw [doneFilter_update_skip s.workers i WStatus.idle rfl hwi]
      exact h1
    · intro j hj
      by_cases hji : j = i
      · subst hji
        simp [WStatus.isDone] at hj
      · simp only [Function.update_noteq hji] at hj
        exact h2 j hj
    · intro hW hall
      exact absurd (hall i) (by simp [WStatus.isDone])
  | finish i hw hc hb =>
    have hwi : (s.workers i).isDone = false := by rw [hw]; rfl
    have hni : i ∉ Finset.univ.filter
        (fun j => ((s.workers j).isDone = true)) := by
      simp [hwi]
    refine ⟨?_, ?_, ?_, ?_⟩
    · dsimp only [doneSet]
      rw [doneFilter_update_done s.workers i,
        Finset.card_insert_of_not_mem hni]
      have h1' : (Finset.univ.filter
          (fun j => (s.workers j).isDone = true)).card
          = s.tokens + s.received := h1
      omega
    · intro j hj
      by_cases hji : j = i
      · exact hc
      · simp only [Function.update_noteq hji] at hj
        exact h2 j hj
    · intro _ _
      exact hb
    · intro hoc
      exfalso
      obtain ⟨hrecv, htok⟩ := h4 hoc
      have hcard : (doneSet s).card = W := by rw [h1, htok, hrecv]; omega
      have huniv : doneSet s = Finset.univ :=
        Finset.eq_univ_of_card _ (by rw [hcard, Fintype.card_fin])
      have hmem : i ∈ doneSet s := huniv ▸ Finset.mem_univ i
      have hdone : (s.workers i).isDone = true := by
        simpa [doneSet, Finset.mem_filter] using hmem
      rw [hwi] at hdone
      exact absurd hdone (by simp)
  | recvToken t h =>
    refine ⟨?_, h2, h3, ?_⟩
    · have h1' : (Finset.univ.filter
          (fun j => (s.workers j).isDone = true)).card
          = s.tokens + s.received := h1
      show (Finset.univ.filter
          (fun j => (s.workers j).isDone = true)).card
          = t + (s.received + 1)
      omega
    · intro hoc
      obtain ⟨hrecv, htok⟩ := h4 hoc
      rw [htok] at h
      show s.received + 1 = W ∧ t = 0
      omega
  | closeOutput h h2c =>
    refine ⟨h1, h2, h3, ?_⟩
    intro _
    have hle : (doneSet s).card ≤ W := doneSet_card_le s
    rw [h1] at hle
    show s.received = W ∧ s.tokens = 0
    constructor
    · exact h
    · omega

/-- Helper: the pool invariant holds in every reachable state. -/
theorem poolInv_reaches {α β : Type} {W : Nat} (f : α → Option β)
    {s : PoolState α β W} (hr : Reaches f s) : PoolInv s := by
  induction hr with
  | init =>
    refine ⟨?_, ?_, ?_, ?_⟩
    · simp [doneSet, PoolState.init, WStatus.isDone]
    · intro i hj
      simp [PoolState.init, WStatus.isDone] at hj
    · intro _ _
      rfl
    · intro hoc
      simp [PoolState.init] at hoc
  | step _ hstep ih => exact poolInv_step f ih hstep

/-- C4: in every reachable pool state whose output channel is closed,
exactly `W` completion tokens were received and none is in flight (one
per worker, since finished workers and counted tokens match), every
worker has finished — having observed the closed input channel while
holding no unemitted item — and the input channel is closed and fully
drained.  The output channel is therefore never closed before every
worker has drained its input and emitted all of its results. -/
theorem pool_close_after_drain {α β : Type} {W : Nat} (f : α → Option β)
    (s : PoolState α β W) (hW : 0 < W) (hr : Reaches f s)
    (hc : s.outputClosed = true) :
    s.received = W ∧ s.tokens = 0 ∧ (∀ i, (s.workers i).isDone = true)
    ∧ s.inputClosed = true ∧ s.inputBuf = [] := by
  obtain ⟨h1, h2, h3, h4⟩ := poolInv_reaches f hr
  obtain ⟨hrecv, htok⟩ := h4 hc
  have hcard : (doneSet s).card = W := by rw [h1, htok, hrecv]; omega
  have hall : ∀ i, (s.workers i).isDone = true := by
    have huniv : doneSet s = Finset.univ :=
      Finset.eq_univ_of_card _ (by rw [hcard, Fintype.card_fin])
    intro i
    have : i ∈ doneSet s := huniv ▸ Finset.mem_univ i
    simpa [doneSet, Finset.mem_filter] using this
  exact ⟨hrecv, htok, hall, h2 ⟨0, hW⟩ (hall ⟨0, hW⟩), h3 hW hall⟩

/-- Worker function for the C4 witness run. -/
def demoF : Unit → Option Unit := fun _ => none

/-- C4 witness chain, state 1: input channel closed. -/
def demoPool1 : PoolState Unit Unit 1 :=
  { PoolState.init Unit Unit 1 with inputClosed := true }

/-- C4 witness chain, state 2: the only worker finished and sent its
token. -/
def demoPool2 : PoolState Unit Unit 1 :=
  { demoPool1 with
      workers := Function.update demoPool1.workers 0 WStatus.done,
      tokens := demoPool1.tokens + 1 }

/-- C4 witness chain, state 3: the closer received the token. -/
def demoPool3 : PoolState Unit Unit 1 :=
  { demoPool2 with tokens := 0, received := demoPool2.received + 1 }

/-- C4 witness chain, state 4: the output channel closed. -/
def demoPool4 : PoolState Unit Unit 1 :=
  { demoPool3 with outputClosed := true }

/-- Witness for C4: a concrete run of a pool with one worker reaches a
closed-output state, and in it the token was received, the worker is
done, and the input is closed and drained. -/
theorem pool_close_after_drain_witness :
    demoPool4.received = 1 ∧ demoPool4.tokens = 0
    ∧ (demoPool4.workers 0).isDone = true
    ∧ demoPool4.inputClosed = true ∧ demoPool4.inputBuf = [] := by
  have h0 : Reaches demoF (PoolState.init Unit Unit 1) := Reaches.init
  have h1 : Reaches demoF demoPool1 :=
    Reaches.step h0 (Step.closeInput _ rfl)
  have h2 : Reaches demoF demoPool2 :=
    Reaches.step h1 (Step.finish _ 0 rfl rfl rfl)
  have h3 : Reaches demoF demoPool3 :=
    Reaches.step h2 (Step.recvToken _ 0 rfl)
  have h4 : Reaches demoF demoPool4 :=
    Reaches.step h3 (Step.closeOutput _ rfl rfl)
  have h := pool_close_after_drain demoF demoPool4 Nat.one_pos h4 rfl
  exact ⟨h.1, h.2.1, h.2.2.1 0, h.2.2.2.1, h.2.2.2.2⟩

end DrTools
